import Mathlib

/-!
# Verification of the stdidx hierarchy builder

Shallow embedding of the stdidx repository's core (tree.go, types.go):
the markdown header extractor, the parent-path normalization step of the
document collector, and the hierarchy builder `BuildHierarchy` together
with its recursive title sort and YAML serialization shape.

Modelling notes (pointer semantics): in the Go source, `BuildHierarchy`
first creates one fresh `*Node` per input record in a map keyed by
`Path` (a later record with the same path overwrites the map entry, and
the earlier instance is discarded before any linking happens).  The
second pass only ever appends pointers that are map-resident after the
first pass, so a node instance is identified exactly by its path key.
We therefore model the node map as a function `String → Option Node`
whose entries record children by path, and materialize the pointer
structure reachable from the roots into an inductive tree afterwards.
-/

namespace Stdidx

/-- Embeds `StandardsHeader` from types.go.  `topics` is a Go slice,
which distinguishes `nil` (field absent) from an empty slice
(`topics: []` in the document); we model that as `Option (List String)`
with `none` for the nil slice. -/
structure StandardsHeader where
  title : String
  description : String
  scope : String
  topics : Option (List String)
  parent : Option String
deriving Repr, DecidableEq

/-- Embeds `StandardsFile` from types.go. -/
structure StandardsFile where
  path : String
  header : StandardsHeader
deriving Repr, DecidableEq

/-- Embeds the Go `Node` of types.go as it exists in the build-time map:
all header fields plus the transient `parent` back-reference, with
`children` recorded as the list of child node paths (see the pointer
modelling note above). -/
structure Node where
  path : String
  title : String
  description : String
  scope : String
  topics : Option (List String)
  parent : Option String
  children : List String
deriving Repr, DecidableEq

/-- The build-time node map `map[string]*Node` of `BuildHierarchy`,
modelled by its lookup function. -/
def Store := String → Option Node

/-- The fresh node `&Node{...}` built from one record in the first pass
of `BuildHierarchy` (tree.go): header fields copied, empty children. -/
def mkNode (f : StandardsFile) : Node :=
  { path := f.path
    title := f.header.title
    description := f.header.description
    scope := f.header.scope
    topics := f.header.topics
    parent := f.header.parent
    children := [] }

/-- First pass of `BuildHierarchy`: `nodes[file.Path] = &Node{...}` for
each record in order; a later record with the same path overwrites. -/
def registerNodes (files : List StandardsFile) : Store :=
  files.foldl (fun m f => fun k => if k = f.path then some (mkNode f) else m k)
    (fun _ => none)

/-- State threaded through the second (linking) pass of
`BuildHierarchy`: the node map, the root list, and the diagnostics
emitted by the `"found node with parent that does not exist"` warning,
recorded as (orphan path, unresolved parent path) pairs. -/
structure BuildState where
  store : Store
  roots : List String
  diags : List (String × String)

/-- `parent.Children = append(parent.Children, node)` on the node
value: the child's path is appended to the parent's children list. -/
def appendChild (pn : Node) (c : String) : Node :=
  { pn with children := pn.children ++ [c] }

/-- One iteration of the linking loop of `BuildHierarchy` (tree.go):
a record without parent is appended to the roots; otherwise the parent
path is looked up in the node map — if absent a diagnostic is emitted
and the record is skipped, if present the record's node is appended to
the parent's children. -/
def linkStep (s : BuildState) (f : StandardsFile) : BuildState :=
  match f.header.parent with
  | none => { s with roots := s.roots ++ [f.path] }
  | some p =>
    match s.store p with
    | none => { s with diags := s.diags ++ [(f.path, p)] }
    | some pn =>
      { s with store := fun k =>
          if k = p then some (appendChild pn f.path)
          else s.store k }

/-- The linking pass run from an initial node map. -/
def linkAll (st0 : Store) (files : List StandardsFile) : BuildState :=
  files.foldl linkStep { store := st0, roots := [], diags := [] }

/-- Embeds `BuildHierarchy` (tree.go) up to, but not including, the
final `sortChildren` call: node registration followed by the linking
pass. -/
def BuildHierarchy (files : List StandardsFile) : BuildState :=
  linkAll (registerNodes files) files

/-- A node of the output forest: the persisted shape of `Node`
(types.go), i.e. without the `parent` back-reference, with children
materialized recursively. -/
inductive TreeNode : Type where
  | mk (path title description scope : String)
      (topics : Option (List String)) (children : List TreeNode) : TreeNode
deriving Repr

def TreeNode.path : TreeNode → String
  | .mk p _ _ _ _ _ => p

def TreeNode.title : TreeNode → String
  | .mk _ t _ _ _ _ => t

def TreeNode.description : TreeNode → String
  | .mk _ _ d _ _ _ => d

def TreeNode.scope : TreeNode → String
  | .mk _ _ _ s _ _ => s

def TreeNode.topics : TreeNode → Option (List String)
  | .mk _ _ _ _ tp _ => tp

def TreeNode.children : TreeNode → List TreeNode
  | .mk _ _ _ _ _ cs => cs

/-- Go's `<` on strings: strict lexicographic comparison byte by byte,
which on valid UTF-8 agrees with codepoint-by-codepoint comparison, so
we compare the codepoint sequences. -/
def lexLt : List Char → List Char → Bool
  | _, [] => false
  | [], _ :: _ => true
  | a :: as, b :: bs =>
    if a.toNat < b.toNat then true
    else if b.toNat < a.toNat then false
    else lexLt as bs

/-- Go's `s < t` on strings. -/
def strLt (a b : String) : Bool := lexLt a.data b.data

/-- One step of the insertion sort used by Go's `sort.Slice` for short
slices, with the comparator `nodes[i].Title < nodes[j].Title` of
`sortChildren` (tree.go): an element moves left past every strictly
greater title, so it lands before the first element not strictly below
it (stable, ascending by title). -/
def insertByTitle (n : TreeNode) : List TreeNode → List TreeNode
  | [] => [n]
  | m :: rest =>
    if strLt m.title n.title then m :: insertByTitle n rest
    else n :: m :: rest

/-- The sibling sort of `sortChildren` (tree.go): sorts one list of
sibling nodes ascending by title. -/
def sortByTitle (l : List TreeNode) : List TreeNode :=
  l.foldr insertByTitle []

/-- Materializes the pointer structure under one node map entry into a
`TreeNode`, applying the per-level sibling sort of `sortChildren`
(tree.go) at each level.  The fuel argument bounds recursion depth; for
every forest the Go program can actually serialize (finite pointer
chains from the roots) a fuel exceeding the chain length reproduces the
serialized structure exactly. -/
def buildNode (m : Store) : Nat → String → Option TreeNode
  | 0, _ => none
  | fuel + 1, p =>
    (m p).map fun nd =>
      .mk p nd.title nd.description nd.scope nd.topics
        (sortByTitle (nd.children.filterMap (buildNode m fuel)))

/-- The output forest of `BuildHierarchy` followed by
`sortChildren(roots)` (tree.go): the root nodes, sorted by title, each
with its recursively sorted children. -/
def buildForest (files : List StandardsFile) : List TreeNode :=
  let st := BuildHierarchy files
  sortByTitle (st.roots.filterMap (buildNode st.store (files.length + 1)))

/-! ## Header extraction (`ExtractMDHeader`, tree.go)

`ExtractMDHeader` reads the file, runs `frontmatter.Parse` on the
content and then validates the parsed struct.  We model the outcome of
`frontmatter.Parse` on the (already successfully read) document as an
input: either the parser failed (a front matter block is present but is
not well-formed structured data — the library returns an error), or it
produced a `StandardsHeader` value (a document without any front matter
block leaves the struct at its zero value: empty strings, nil topics
slice, nil parent). -/

/-- Outcome of `frontmatter.Parse` on a document whose bytes were read
successfully. -/
inductive FrontMatter where
  | failed (msg : String) : FrontMatter
  | parsed (header : StandardsHeader) : FrontMatter
deriving Repr, DecidableEq

/-- The `validate.Struct(header)` call of `ExtractMDHeader` with the
`validate:"required"` tags of types.go: `required` on a string demands
a non-empty string, `required` on the `Topics` slice demands a non-nil
slice (an empty but non-nil slice passes), and `Parent` is `omitempty`
(unconstrained). -/
def validateHeader (h : StandardsHeader) : Bool :=
  (!(h.title = "")) && (!(h.description = "")) && (!(h.scope = "")) && h.topics.isSome

/-- Embeds `ExtractMDHeader` (tree.go) after the successful file read:
a `frontmatter.Parse` error is returned as a hard error (`return nil,
err`); a parsed header failing validation yields `nil, nil`; a valid
header is returned. -/
def ExtractMDHeader (fm : FrontMatter) : Except String (Option StandardsHeader) :=
  match fm with
  | .failed e => .error e
  | .parsed h => if validateHeader h then .ok (some h) else .ok none

/-! ## Parent path normalization (`ParseMDDocuments`, tree.go)

After the directory walk, `ParseMDDocuments` rewrites every non-nil
parent to `path.Join(root, *file.Header.Parent)`.  `path.Join` and
`path.Clean` are Go standard library functions (package `path`); they
are embedded below following their lexical semantics: `Join`
concatenates the non-empty elements with `/` and applies `Clean`,
which resolves `.` and `..` segments and collapses repeated
separators. -/

/-- Splits a codepoint sequence on `/` separators (the segment view Go's
`path.Clean` processes; `/` is a single byte in UTF-8, so splitting on
codepoints agrees with Go's byte-wise scan). -/
def splitSlashAux (cur : List Char) : List Char → List (List Char)
  | [] => [cur.reverse]
  | c :: cs =>
    if c = '/' then cur.reverse :: splitSlashAux [] cs
    else splitSlashAux (c :: cur) cs

def splitSlash (s : List Char) : List (List Char) := splitSlashAux [] s

/-- One step of the segment processing of Go's `path.Clean`: empty and
`.` segments are dropped, `..` pops the last retained segment (or is
kept when there is nothing left to pop and the path is not rooted);
the accumulator holds the retained segments in reverse order. -/
def cleanSeg (rooted : Bool) (acc : List (List Char)) (seg : List Char) : List (List Char) :=
  if seg = [] || seg = ['.'] then acc
  else if seg = ['.', '.'] then
    match acc with
    | [] => if rooted then [] else [['.', '.']]
    | a :: rest => if a = ['.', '.'] then seg :: a :: rest else rest
  else seg :: acc

/-- Joins segments back with `/` separators. -/
def joinSegs : List (List Char) → List Char
  | [] => []
  | [s] => s
  | s :: rest => s ++ '/' :: joinSegs rest

/-- Go's `path.Clean`: lexical simplification of a slash-separated
path. -/
def pathClean (p : String) : String :=
  let rooted := match p.data with | '/' :: _ => true | _ => false
  let body := joinSegs ((splitSlash p.data).foldl (cleanSeg rooted) []).reverse
  if rooted then ⟨'/' :: body⟩
  else if body = [] then "." else ⟨body⟩

/-- Go's `path.Join` restricted to two elements, as called by
`ParseMDDocuments`: empty elements are dropped, the rest joined with
`/` and cleaned; all-empty input yields the empty string. -/
def pathJoin (a b : String) : String :=
  match [a, b].filter (fun e => !(e = "")) with
  | [] => ""
  | e :: es => pathClean ⟨joinSegs ((e :: es).map String.data)⟩

/-- The parent-normalization loop at the end of `ParseMDDocuments`
(tree.go): every record whose header declares a parent has that parent
rewritten to `path.Join(root, parent)`; records without a parent are
untouched. -/
def normalizeParents (root : String) (headers : List StandardsFile) : List StandardsFile :=
  headers.map fun file =>
    match file.header.parent with
    | none => file
    | some par =>
      { file with header := { file.header with parent := some (pathJoin root par) } }

/-! ## Order facts about the title comparator -/

theorem char_toNat_inj {a b : Char} (h : a.toNat = b.toNat) : a = b := by
  unfold Char.toNat at h
  exact Char.eq_of_val_eq (UInt32.toNat.inj h)

theorem lexLt_irrefl : ∀ as, lexLt as as = false
  | [] => rfl
  | a :: as => by simp [lexLt, lexLt_irrefl as]

theorem lexLt_trans : ∀ as bs cs, lexLt as bs = true → lexLt bs cs = true →
    lexLt as cs = true := by
  intro as
  induction as with
  | nil =>
    intro bs cs h1 h2
    cases bs with
    | nil => simp [lexLt] at h1
    | cons b bs =>
      cases cs with
      | nil => simp [lexLt] at h2
      | cons c cs => simp [lexLt]
  | cons a as ih =>
    intro bs cs h1 h2
    cases bs with
    | nil => simp [lexLt] at h1
    | cons b bs =>
      cases cs with
      | nil => simp [lexLt] at h2
      | cons c cs =>
        simp only [lexLt] at h1 h2 ⊢
        split_ifs at h1 h2 ⊢ <;>
          first
          | rfl
          | omega
          | (exact ih bs cs h1 h2)

theorem lexLt_asymm {as bs : List Char} (h : lexLt as bs = true) :
    lexLt bs as = false := by
  by_contra hc
  have hba : lexLt bs as = true := by
    revert hc; cases lexLt bs as <;> simp
  have := lexLt_trans as bs as h hba
  rw [lexLt_irrefl] at this
  exact absurd this (by simp)

theorem lexLt_connex : ∀ as bs, lexLt as bs = false → lexLt bs as = false →
    as = bs := by
  intro as
  induction as with
  | nil =>
    intro bs h1 _
    cases bs with
    | nil => rfl
    | cons b bs => simp [lexLt] at h1
  | cons a as ih =>
    intro bs h1 h2
    cases bs with
    | nil => simp [lexLt] at h2
    | cons b bs =>
      simp only [lexLt] at h1 h2
      split_ifs at h1 h2
      all_goals try simp_all
      have hab : a = b := char_toNat_inj (by omega)
      subst hab
      exact ⟨rfl, ih bs h1 h2⟩

/-- The sibling (non-strict) title order produced by the sort:
`a` precedes `b` when `b`'s title is not strictly below `a`'s. -/
def titleLe (a b : TreeNode) : Prop := strLt b.title a.title = false

theorem titleLe_of_strLt {a b : TreeNode} (h : strLt a.title b.title = true) :
    titleLe a b := lexLt_asymm h

theorem titleLe_of_not_strLt {a b : TreeNode} (h : strLt b.title a.title = false) :
    titleLe a b := h

theorem titleLe_trans {a b c : TreeNode} (h1 : titleLe a b) (h2 : titleLe b c) :
    titleLe a c := by
  unfold titleLe strLt at h1 h2 ⊢
  by_contra hc
  have hca : lexLt c.title.data a.title.data = true := by
    revert hc; cases lexLt c.title.data a.title.data <;> simp
  cases hbc : lexLt b.title.data c.title.data with
  | true => exact absurd (lexLt_trans _ _ _ hbc hca) (by simp [h1])
  | false =>
    have heq := lexLt_connex _ _ h2 hbc
    rw [heq] at hca
    exact absurd hca (by simp [h1])

theorem title_eq_of_titleLe {a b : TreeNode} (h1 : titleLe a b) (h2 : titleLe b a) :
    a.title = b.title := by
  unfold titleLe strLt at h1 h2
  have hdata : a.title.data = b.title.data := lexLt_connex _ _ h2 h1
  cases hta : a.title with
  | mk da =>
    cases htb : b.title with
    | mk db => rw [hta, htb] at hdata; simp_all

/-! ## Insertion sort lemmas -/

theorem insertByTitle_perm (n : TreeNode) :
    ∀ l, (insertByTitle n l).Perm (n :: l) := by
  intro l
  induction l with
  | nil => simp [insertByTitle]
  | cons m rest ih =>
    unfold insertByTitle
    split
    · exact ((ih.cons m).trans (List.Perm.swap n m rest))
    · exact List.Perm.refl _

theorem insertByTitle_sorted (n : TreeNode) :
    ∀ l, l.Pairwise titleLe → (insertByTitle n l).Pairwise titleLe := by
  intro l
  induction l with
  | nil => intro _; simp [insertByTitle, List.Pairwise]
  | cons m rest ih =>
    intro hp
    rcases List.pairwise_cons.mp hp with ⟨hm, hrest⟩
    unfold insertByTitle
    split
    · next hlt =>
      refine List.pairwise_cons.mpr ⟨?_, ih hrest⟩
      intro x hx
      rcases List.mem_cons.mp ((insertByTitle_perm n rest).mem_iff.mp hx) with hx1 | hx1
      · subst hx1; exact titleLe_of_strLt hlt
      · exact hm x hx1
    · next hlt =>
      have hnm : titleLe n m := titleLe_of_not_strLt (by
        revert hlt; cases strLt m.title n.title <;> simp)
      refine List.pairwise_cons.mpr ⟨?_, hp⟩
      intro x hx
      rcases List.mem_cons.mp hx with hx1 | hx1
      · subst hx1; exact hnm
      · exact titleLe_trans hnm (hm x hx1)

theorem sortByTitle_perm (l : List TreeNode) : (sortByTitle l).Perm l := by
  induction l with
  | nil => simp [sortByTitle]
  | cons m rest ih =>
    unfold sortByTitle at ih ⊢
    simpa using (insertByTitle_perm m (rest.foldr insertByTitle [])).trans (ih.cons m)

theorem sortByTitle_sorted (l : List TreeNode) :
    (sortByTitle l).Pairwise titleLe := by
  induction l with
  | nil => simp [sortByTitle, List.Pairwise]
  | cons m rest ih => exact insertByTitle_sorted m _ ih

/-- A list of nodes with pairwise-distinct titles has exactly one
sorted arrangement: two sorted lists that are permutations of each
other coincide. -/
theorem sorted_perm_eq : ∀ l₁ l₂ : List TreeNode, l₁.Perm l₂ →
    l₁.Pairwise titleLe → l₂.Pairwise titleLe →
    (l₁.map TreeNode.title).Nodup → l₁ = l₂ := by
  intro l₁
  induction l₁ with
  | nil => intro l₂ hp _ _ _; simpa using hp.nil_eq
  | cons a t₁ ih =>
    intro l₂ hp hs₁ hs₂ hnd
    cases l₂ with
    | nil => exact absurd hp.symm (by simp)
    | cons b t₂ =>
      rcases List.pairwise_cons.mp hs₁ with ⟨ha, ht₁⟩
      rcases List.pairwise_cons.mp hs₂ with ⟨hb, ht₂⟩
      have hab : a = b := by
        have hamem := List.mem_cons.mp (hp.mem_iff.mp (List.mem_cons_self a t₁))
        have hbmem := List.mem_cons.mp (hp.symm.mem_iff.mp (List.mem_cons_self b t₂))
        rcases hamem with h | hamem
        · exact h
        rcases hbmem with h | hbmem
        · exact h.symm
        have h1 : titleLe b a := hb a hamem
        have h2 : titleLe a b := ha b hbmem
        have htitle : a.title = b.title := title_eq_of_titleLe h2 h1
        exfalso
        have : a.title ∈ t₁.map TreeNode.title := by
          rw [htitle]; exact List.mem_map_of_mem _ hbmem
        simp only [List.map_cons, List.nodup_cons] at hnd
        exact hnd.1 this
      subst hab
      have := ih t₂ (hp.cons_inv) ht₁ ht₂ (by
        simp only [List.map_cons, List.nodup_cons] at hnd; exact hnd.2)
      rw [this]

/-- Sorting by title is determined by the multiset of nodes whenever
their titles are pairwise distinct. -/
theorem sortByTitle_eq_of_perm {l₁ l₂ : List TreeNode} (hp : l₁.Perm l₂)
    (hnd : (l₁.map TreeNode.title).Nodup) : sortByTitle l₁ = sortByTitle l₂ := by
  apply sorted_perm_eq
  · exact (sortByTitle_perm l₁).trans (hp.trans (sortByTitle_perm l₂).symm)
  · exact sortByTitle_sorted l₁
  · exact sortByTitle_sorted l₂
  · exact ((sortByTitle_perm l₁).map TreeNode.title).nodup_iff.mpr hnd

/-! ## Closed forms for the two passes of `BuildHierarchy` -/

def pathsOf (files : List StandardsFile) : List String :=
  files.map StandardsFile.path

/-- The paths appended to the root list by the linking pass, in input
order: one entry per record without a parent. -/
def rootAppends (files : List StandardsFile) : List String :=
  (files.filter (fun f => f.header.parent.isNone)).map StandardsFile.path

/-- The child paths appended to the node keyed `k` by the linking pass,
in input order: one entry per record whose parent is `k`. -/
def childAppends (files : List StandardsFile) (k : String) : List String :=
  (files.filter (fun f => decide (f.header.parent = some k))).map StandardsFile.path

/-- The diagnostics emitted by the linking pass over an initial node
map `st0`: one (orphan path, unresolved parent) pair per record whose
parent is not a key of the map. -/
def danglingDiags (st0 : Store) (files : List StandardsFile) : List (String × String) :=
  files.filterMap fun f =>
    match f.header.parent with
    | none => none
    | some p => match st0 p with
      | none => some (f.path, p)
      | some _ => none

theorem linkAll_append (st0 : Store) (files : List StandardsFile) (f : StandardsFile) :
    linkAll st0 (files ++ [f]) = linkStep (linkAll st0 files) f := by
  unfold linkAll
  rw [List.foldl_append]
  rfl

theorem linkStep_no_parent {s : BuildState} {f : StandardsFile}
    (h : f.header.parent = none) :
    linkStep s f = { s with roots := s.roots ++ [f.path] } := by
  simp only [linkStep, h]

theorem linkStep_missing {s : BuildState} {f : StandardsFile} {p : String}
    (h : f.header.parent = some p) (h2 : s.store p = none) :
    linkStep s f = { s with diags := s.diags ++ [(f.path, p)] } := by
  simp only [linkStep, h, h2]

theorem linkStep_found {s : BuildState} {f : StandardsFile} {p : String} {pn : Node}
    (h : f.header.parent = some p) (h2 : s.store p = some pn) :
    linkStep s f = { s with store := fun k =>
      (if k = p then some (appendChild pn f.path) else s.store k) } := by
  simp only [linkStep, h, h2]

theorem linkAll_store (st0 : Store) (files : List StandardsFile) : ∀ k,
    (linkAll st0 files).store k =
      (st0 k).map fun nd => { nd with children := nd.children ++ childAppends files k } := by
  induction files using List.reverseRecOn with
  | nil =>
    intro k
    simp only [linkAll, List.foldl_nil, childAppends, List.filter_nil, List.map_nil,
      List.append_nil]
    cases st0 k <;> rfl
  | append_singleton fs f ih =>
    intro k
    rw [linkAll_append]
    cases hf : f.header.parent with
    | none =>
      rw [linkStep_no_parent hf]
      show (linkAll st0 fs).store k = _
      rw [ih k]
      simp [childAppends, List.filter_append, hf]
    | some p =>
      cases hsp : (linkAll st0 fs).store p with
      | none =>
        rw [linkStep_missing hf hsp]
        show (linkAll st0 fs).store k = _
        rw [ih k]
        rw [ih p] at hsp
        have hst0p : st0 p = none := by
          cases h0 : st0 p with
          | none => rfl
          | some nd0 => rw [h0] at hsp; simp at hsp
        by_cases hk : k = p
        · subst hk; rw [hst0p]; rfl
        · simp [childAppends, List.filter_append, hf, Ne.symm hk]
      | some pn =>
        rw [linkStep_found hf hsp]
        rw [ih p] at hsp
        rcases Option.map_eq_some'.mp hsp with ⟨nd0, hnd0, hpn⟩
        show (if k = p then some (appendChild pn f.path)
          else (linkAll st0 fs).store k) =
          (st0 k).map fun nd =>
            { nd with children := nd.children ++ childAppends (fs ++ [f]) k }
        by_cases hk : k = p
        · subst hk
          rw [if_pos rfl, hnd0, ← hpn]
          simp [childAppends, appendChild, List.filter_append, hf]
        · rw [if_neg hk, ih k]
          simp [childAppends, List.filter_append, hf, Ne.symm hk]

theorem linkAll_roots (st0 : Store) (files : List StandardsFile) :
    (linkAll st0 files).roots = rootAppends files := by
  induction files using List.reverseRecOn with
  | nil => rfl
  | append_singleton fs f ih =>
    rw [linkAll_append]
    cases hf : f.header.parent with
    | none =>
      rw [linkStep_no_parent hf]
      show (linkAll st0 fs).roots ++ [f.path] = _
      simp [ih, rootAppends, List.filter_append, hf]
    | some p =>
      cases hsp : (linkAll st0 fs).store p with
      | none =>
        rw [linkStep_missing hf hsp]
        show (linkAll st0 fs).roots = _
        simp [ih, rootAppends, List.filter_append, hf]
      | some pn =>
        rw [linkStep_found hf hsp]
        show (linkAll st0 fs).roots = _
        simp [ih, rootAppends, List.filter_append, hf]

theorem linkAll_diags (st0 : Store) (files : List StandardsFile) :
    (linkAll st0 files).diags = danglingDiags st0 files := by
  induction files using List.reverseRecOn with
  | nil => rfl
  | append_singleton fs f ih =>
    rw [linkAll_append]
    cases hf : f.header.parent with
    | none =>
      rw [linkStep_no_parent hf]
      show (linkAll st0 fs).diags = _
      simp [ih, danglingDiags, List.filterMap_append, hf]
    | some p =>
      cases hsp : (linkAll st0 fs).store p with
      | none =>
        rw [linkStep_missing hf hsp]
        have hst0p : st0 p = none := by
          rw [linkAll_store st0 fs p] at hsp
          cases h0 : st0 p with
          | none => rfl
          | some nd0 => rw [h0] at hsp; simp at hsp
        show (linkAll st0 fs).diags ++ [(f.path, p)] = _
        simp [ih, danglingDiags, List.filterMap_append, hf, hst0p]
      | some pn =>
        rw [linkStep_found hf hsp]
        have hst0p : ∃ nd0, st0 p = some nd0 := by
          rw [linkAll_store st0 fs p] at hsp
          rcases Option.map_eq_some'.mp hsp with ⟨nd0, hnd0, _⟩
          exact ⟨nd0, hnd0⟩
        rcases hst0p with ⟨nd0, hnd0⟩
        show (linkAll st0 fs).diags = _
        simp [ih, danglingDiags, List.filterMap_append, hf, hnd0]

/-! ## Closed forms for node registration -/

theorem registerNodes_append (files : List StandardsFile) (f : StandardsFile) (k : String) :
    registerNodes (files ++ [f]) k =
      if k = f.path then some (mkNode f) else registerNodes files k := by
  unfold registerNodes
  rw [List.foldl_append]
  rfl

theorem registerNodes_none_iff (files : List StandardsFile) (k : String) :
    registerNodes files k = none ↔ k ∉ pathsOf files := by
  induction files using List.reverseRecOn with
  | nil => simp [registerNodes, pathsOf]
  | append_singleton fs f ih =>
    rw [registerNodes_append]
    by_cases hk : k = f.path
    · simp [hk, pathsOf]
    · rw [if_neg hk, ih]
      simp [pathsOf, hk]

theorem registerNodes_mem (files : List StandardsFile) (k : String) {nd : Node}
    (h : registerNodes files k = some nd) :
    ∃ f, f ∈ files ∧ f.path = k ∧ nd = mkNode f := by
  induction files using List.reverseRecOn with
  | nil => simp [registerNodes] at h
  | append_singleton fs f ih =>
    rw [registerNodes_append] at h
    by_cases hk : k = f.path
    · rw [if_pos hk] at h
      exact ⟨f, by simp, hk.symm, (Option.some.inj h).symm⟩
    · rw [if_neg hk] at h
      rcases ih h with ⟨g, hg, hgk, hnd⟩
      exact ⟨g, by simp [hg], hgk, hnd⟩

theorem registerNodes_nodup (files : List StandardsFile)
    (hnd : (pathsOf files).Nodup) {f : StandardsFile} (hf : f ∈ files) :
    registerNodes files f.path = some (mkNode f) := by
  induction files using List.reverseRecOn with
  | nil => simp at hf
  | append_singleton fs g ih =>
    rw [registerNodes_append]
    rcases List.mem_append.mp hf with hmem | hmem
    · have hne : f.path ≠ g.path := by
        simp only [pathsOf, List.map_append, List.map_cons, List.map_nil] at hnd
        have := (List.nodup_append.mp hnd).2.2
        intro hcontra
        exact this (List.mem_map_of_mem _ hmem) (by simp [hcontra])
      rw [if_neg hne]
      apply ih _ hmem
      simp only [pathsOf, List.map_append] at hnd
      exact (List.nodup_append.mp hnd).1
    · have : f = g := by simpa using hmem
      subst this
      simp

/-- The node map of `BuildHierarchy`: the entry for `k` is the node of
the last input record with path `k`, its children being exactly the
paths of the records that declare parent `k`, in input order. -/
theorem BuildHierarchy_store (files : List StandardsFile) (k : String) :
    (BuildHierarchy files).store k =
      (registerNodes files k).map fun nd => { nd with children := childAppends files k } := by
  unfold BuildHierarchy
  rw [linkAll_store]
  cases h : registerNodes files k with
  | none => rfl
  | some nd =>
    rcases registerNodes_mem files k h with ⟨f, _, _, hnd⟩
    subst hnd
    simp [mkNode]

theorem BuildHierarchy_roots (files : List StandardsFile) :
    (BuildHierarchy files).roots = rootAppends files :=
  linkAll_roots _ _

theorem BuildHierarchy_diags (files : List StandardsFile) :
    (BuildHierarchy files).diags = danglingDiags (registerNodes files) files :=
  linkAll_diags _ _

/-! ## Concrete example inputs used by claim witnesses and
counterexamples -/

def exDupA : StandardsFile := ⟨"p", ⟨"TitleA", "DA", "*.go", some [], none⟩⟩
def exDupB : StandardsFile := ⟨"p", ⟨"TitleB", "DB", "*.go", some [], none⟩⟩

def exCycA : StandardsFile := ⟨"a", ⟨"TA", "DA", "*.go", some [], some "b"⟩⟩
def exCycB : StandardsFile := ⟨"b", ⟨"TB", "DB", "*.go", some [], some "a"⟩⟩

def exNormFile : StandardsFile :=
  ⟨"tree/A.md", ⟨"T", "D", "*.go", some [], some "sub/OTHER.md"⟩⟩

/-- C9: on an input with two records sharing path `"p"` and neither
declaring a parent, `BuildHierarchy` keeps a single node — the one
registered last (title `TitleB`) — but appends it to the root list once
per record, so the identical node appears twice among the roots of the
output forest. -/
theorem duplicate_path_double_root :
    (BuildHierarchy [exDupA, exDupB]).roots = ["p", "p"]
  ∧ (BuildHierarchy [exDupA, exDupB]).store "p" = some (mkNode exDupB)
  ∧ buildForest [exDupA, exDupB] =
      [.mk "p" "TitleB" "DB" "*.go" (some []) [],
       .mk "p" "TitleB" "DB" "*.go" (some []) []] :=
  ⟨rfl, rfl, rfl⟩

/-- C10: on two records that declare each other as parent,
`BuildHierarchy` links each node into the other's children list, adds
neither to the root list, emits no dangling-parent diagnostic, and both
records are absent from the forest reachable from the roots (which is
empty). -/
theorem mutual_parents_vanish :
    (BuildHierarchy [exCycA, exCycB]).roots = []
  ∧ ((BuildHierarchy [exCycA, exCycB]).store "a").map Node.children = some ["b"]
  ∧ ((BuildHierarchy [exCycA, exCycB]).store "b").map Node.children = some ["a"]
  ∧ (BuildHierarchy [exCycA, exCycB]).diags = []
  ∧ buildForest [exCycA, exCycB] = [] :=
  ⟨rfl, rfl, rfl, rfl, rfl⟩

/-- C4 counterexample: a document whose metadata block fails to parse
as structured data makes `ExtractMDHeader` return the parse error — not
the no-header/no-error result the claim asserts. -/
theorem malformed_block_not_silent :
    ExtractMDHeader (.failed "yaml: could not find expected directive name") =
      .error "yaml: could not find expected directive name"
  ∧ ExtractMDHeader (.failed "yaml: could not find expected directive name") ≠
      .ok none := by
  refine ⟨rfl, fun h => ?_⟩
  exact Except.noConfusion h

/-- C4 amended: a metadata block that fails to parse as structured data
propagates as a hard error from `ExtractMDHeader`; only a block that
parses but fails required-field validation (which includes the
zero-value header of a document with no metadata block at all) yields
the "no header, no error" result. -/
theorem parse_failure_propagates (e : String) (h : StandardsHeader)
    (hv : validateHeader h = false) :
    ExtractMDHeader (.failed e) = .error e
  ∧ ExtractMDHeader (.parsed h) = .ok none := by
  refine ⟨rfl, ?_⟩
  simp only [ExtractMDHeader, hv]
  rfl

theorem parse_failure_propagates_witness :
    ExtractMDHeader (.failed "boom") = .error "boom"
  ∧ ExtractMDHeader (.parsed ⟨"", "", "", none, none⟩) = .ok none :=
  parse_failure_propagates "boom" ⟨"", "", "", none, none⟩ rfl

/-- C5: a header that parses with non-empty title, description and
scope, and whose topics field is present but an empty list, passes
validation: `ExtractMDHeader` returns the header, not the "no header"
result. -/
theorem empty_topics_accepted (t d s : String) (pr : Option String)
    (ht : t ≠ "") (hd : d ≠ "") (hs : s ≠ "") :
    ExtractMDHeader (.parsed ⟨t, d, s, some [], pr⟩) =
      .ok (some ⟨t, d, s, some [], pr⟩) := by
  unfold ExtractMDHeader validateHeader
  simp [ht, hd, hs]

theorem empty_topics_accepted_witness :
    ExtractMDHeader (.parsed ⟨"T", "D", "*.go", some [], none⟩) =
      .ok (some ⟨"T", "D", "*.go", some [], none⟩) :=
  empty_topics_accepted "T" "D" "*.go" none
    (by decide) (by decide) (by decide)

/-- C7: after the normalization pass of `ParseMDDocuments`, every
record is the image of a collected record with the same path (and other
header fields), whose declared parent — when present — has been
rewritten to the `path.Join` of the traversal root with the declared
value. -/
theorem parent_normalized (root : String) (hs : List StandardsFile)
    (g : StandardsFile) (hmem : g ∈ normalizeParents root hs) :
    ∃ orig, orig ∈ hs ∧ g.path = orig.path
      ∧ g.header.title = orig.header.title
      ∧ g.header.parent = orig.header.parent.map (pathJoin root) := by
  unfold normalizeParents at hmem
  rcases List.mem_map.mp hmem with ⟨orig, horig, hg⟩
  refine ⟨orig, horig, ?_⟩
  cases hpar : orig.header.parent with
  | none =>
    simp only [hpar] at hg
    subst hg
    simp [hpar]
  | some par =>
    simp only [hpar] at hg
    subst hg
    simp [hpar]

/-- C7 witness, realizing the spec scenario: a record under traversal
root `"tree"` declaring `parent: "sub/OTHER.md"` is normalized to the
parent value `"tree/sub/OTHER.md"` — the `path.Join` of the root with
the declared value, directly comparable to the `path` of the record
collected at `tree/sub/OTHER.md`. -/
theorem parent_normalized_witness :
    ∃ orig, orig ∈ [exNormFile]
      ∧ (⟨"tree/A.md", ⟨"T", "D", "*.go", some [], some "tree/sub/OTHER.md"⟩⟩ :
          StandardsFile).path = orig.path
      ∧ (⟨"tree/A.md", ⟨"T", "D", "*.go", some [], some "tree/sub/OTHER.md"⟩⟩ :
          StandardsFile).header.title = orig.header.title
      ∧ (⟨"tree/A.md", ⟨"T", "D", "*.go", some [], some "tree/sub/OTHER.md"⟩⟩ :
          StandardsFile).header.parent = orig.header.parent.map (pathJoin "tree") :=
  parent_normalized "tree" [exNormFile] _ (by decide)

/-! ## Paths occurring in a materialized forest -/

mutual

/-- All node paths occurring in a materialized tree: the node's own
path and, recursively, every path in its children. -/
def treePaths : TreeNode → List String
  | .mk p _ _ _ _ cs => p :: forestPaths cs

/-- All node paths occurring in a forest. -/
def forestPaths : List TreeNode → List String
  | [] => []
  | t :: ts => treePaths t ++ forestPaths ts

end

theorem mem_forestPaths {q : String} : ∀ {l : List TreeNode},
    q ∈ forestPaths l ↔ ∃ t ∈ l, q ∈ treePaths t := by
  intro l
  induction l with
  | nil => simp [forestPaths]
  | cons t ts ih =>
    simp only [forestPaths, List.mem_append, ih, List.mem_cons]
    constructor
    · rintro (h | ⟨u, hu, hq⟩)
      · exact ⟨t, Or.inl rfl, h⟩
      · exact ⟨u, Or.inr hu, hq⟩
    · rintro ⟨u, hu | hu, hq⟩
      · subst hu; exact Or.inl hq
      · exact Or.inr ⟨u, hu, hq⟩

/-- Every path in the tree materialized from map entry `p` is either
`p` itself or a member of some map entry's children list. -/
theorem buildNode_paths (m : Store) : ∀ fuel p t,
    buildNode m fuel p = some t → ∀ q, q ∈ treePaths t →
      q = p ∨ ∃ k nd, m k = some nd ∧ q ∈ nd.children := by
  intro fuel
  induction fuel with
  | zero => intro p t h; simp [buildNode] at h
  | succ fuel ih =>
    intro p t h q hq
    unfold buildNode at h
    rcases Option.map_eq_some'.mp h with ⟨nd, hnd, ht⟩
    subst ht
    unfold treePaths at hq
    rcases List.mem_cons.mp hq with hq1 | hq1
    · exact Or.inl hq1
    · right
      rcases mem_forestPaths.mp hq1 with ⟨t', ht', hqt'⟩
      have ht'mem : t' ∈ nd.children.filterMap (buildNode m fuel) :=
        (sortByTitle_perm _).subset ht'
      rcases List.mem_filterMap.mp ht'mem with ⟨c, hc, hbc⟩
      rcases ih c t' hbc q hqt' with hqc | hrec
      · exact ⟨p, nd, hnd, hqc ▸ hc⟩
      · exact hrec

/-- Two records of a duplicate-free input with the same path are the
same record. -/
theorem record_path_inj (files : List StandardsFile)
    (hnd : (pathsOf files).Nodup) {f g : StandardsFile}
    (hf : f ∈ files) (hg : g ∈ files) (heq : f.path = g.path) : f = g :=
  List.inj_on_of_nodup_map hnd hf hg heq

/-- C1: for a duplicate-free input, a record whose declared parent
matches no input path is pruned entirely: a diagnostic naming the
orphaned path and its unresolved parent is emitted, the record's path
is not a root, appears in no node's children list, and occurs nowhere
in the materialized output forest — while `BuildHierarchy` still
returns a tree (it is total). -/
theorem dangling_parent_pruned (files : List StandardsFile)
    (hnd : (pathsOf files).Nodup) (f : StandardsFile) (hf : f ∈ files)
    (p : String) (hp : f.header.parent = some p)
    (hmiss : p ∉ pathsOf files) :
    ((f.path, p) ∈ (BuildHierarchy files).diags)
  ∧ f.path ∉ (BuildHierarchy files).roots
  ∧ (∀ k nd, (BuildHierarchy files).store k = some nd → f.path ∉ nd.children)
  ∧ f.path ∉ forestPaths (buildForest files) := by
  have hregp : registerNodes files p = none :=
    (registerNodes_none_iff files p).mpr hmiss
  have hroots : f.path ∉ (BuildHierarchy files).roots := by
    rw [BuildHierarchy_roots]
    intro hmem
    rcases List.mem_map.mp hmem with ⟨g, hgfilter, hgpath⟩
    have hgfiles : g ∈ files := (List.mem_filter.mp hgfilter).1
    have hgnone : g.header.parent.isNone = true := (List.mem_filter.mp hgfilter).2
    have : g = f := record_path_inj files hnd hgfiles hf hgpath
    subst this
    rw [hp] at hgnone
    simp at hgnone
  have hchildren : ∀ k nd, (BuildHierarchy files).store k = some nd →
      f.path ∉ nd.children := by
    intro k nd hknd hmem
    rw [BuildHierarchy_store] at hknd
    rcases Option.map_eq_some'.mp hknd with ⟨nd0, hnd0, hnd'⟩
    rw [← hnd'] at hmem
    simp only [childAppends] at hmem
    rcases List.mem_map.mp hmem with ⟨g, hgfilter, hgpath⟩
    have hgfiles : g ∈ files := (List.mem_filter.mp hgfilter).1
    have hgpar : g.header.parent = some k :=
      of_decide_eq_true (List.mem_filter.mp hgfilter).2
    have : g = f := record_path_inj files hnd hgfiles hf hgpath
    subst this
    rw [hp] at hgpar
    have hkp : k = p := (Option.some.inj hgpar).symm
    subst hkp
    rw [hregp] at hnd0
    exact Option.noConfusion hnd0
  refine ⟨?_, hroots, hchildren, ?_⟩
  · rw [BuildHierarchy_diags]
    unfold danglingDiags
    apply List.mem_filterMap.mpr
    refine ⟨f, hf, ?_⟩
    simp [hp, hregp]
  · intro hmem
    rcases mem_forestPaths.mp hmem with ⟨t, htmem, hq⟩
    unfold buildForest at htmem
    have htmem' := (sortByTitle_perm _).subset htmem
    rcases List.mem_filterMap.mp htmem' with ⟨r, hr, hbr⟩
    rcases buildNode_paths _ _ _ _ hbr _ hq with hq1 | ⟨k, nd, hknd, hmemc⟩
    · exact hroots (hq1 ▸ hr)
    · exact hchildren k nd hknd hmemc

def exOrphan : StandardsFile := ⟨"a", ⟨"TO", "D", "*.go", some [], some "missing"⟩⟩

theorem dangling_parent_pruned_witness :
    ("a", "missing") ∈ (BuildHierarchy [exOrphan]).diags
  ∧ "a" ∉ (BuildHierarchy [exOrphan]).roots := by
  have h := dangling_parent_pruned [exOrphan] (by decide) exOrphan (by decide)
    "missing" rfl (by decide)
  exact ⟨h.1, h.2.1⟩

/-! ## C1 counterexample: duplicate paths defeat pruning -/

def exDangDup1 : StandardsFile := ⟨"a", ⟨"T1", "D", "*.go", some [], some "missing"⟩⟩
def exDangDup2 : StandardsFile := ⟨"a", ⟨"T2", "D", "*.go", some [], none⟩⟩

/-- C1 counterexample: with two records sharing path `"a"`, the first
declaring the dangling parent `"missing"`, the diagnostic is emitted
but the node keyed `"a"` still appears as a root of the output forest:
the dangling record's node is not pruned from the tree. -/
theorem dangling_parent_not_always_pruned :
    (("a", "missing") ∈ (BuildHierarchy [exDangDup1, exDangDup2]).diags)
  ∧ "a" ∈ (BuildHierarchy [exDangDup1, exDangDup2]).roots
  ∧ (buildForest [exDangDup1, exDangDup2]).map TreeNode.path = ["a"] :=
  ⟨by decide, by decide, rfl⟩

/-! ## C3: acyclicity of the reachable forest -/

/-- The child-edge relation of a node map: `childEdge m p c` holds when
the entry at `p` lists `c` among its children — i.e. the Go pointer
graph has an edge from node `p` to node `c`. -/
def childEdge (m : Store) (p c : String) : Prop :=
  ∃ nd, m p = some nd ∧ c ∈ nd.children

theorem childEdge_record {files : List StandardsFile} {p c : String}
    (h : childEdge (BuildHierarchy files).store p c) :
    ∃ g ∈ files, g.path = c ∧ g.header.parent = some p := by
  rcases h with ⟨nd, hnd, hc⟩
  rw [BuildHierarchy_store] at hnd
  rcases Option.map_eq_some'.mp hnd with ⟨nd0, _, hnd'⟩
  rw [← hnd'] at hc
  simp only [childAppends] at hc
  rcases List.mem_map.mp hc with ⟨g, hgfilter, hgpath⟩
  exact ⟨g, (List.mem_filter.mp hgfilter).1, hgpath,
    of_decide_eq_true (List.mem_filter.mp hgfilter).2⟩

/-- With duplicate-free paths each node has at most one incoming child
edge: the one from its record's declared parent. -/
theorem childEdge_functional {files : List StandardsFile}
    (hnd : (pathsOf files).Nodup) {p p' c : String}
    (h : childEdge (BuildHierarchy files).store p c)
    (h' : childEdge (BuildHierarchy files).store p' c) : p = p' := by
  rcases childEdge_record h with ⟨g, hg, hgc, hgp⟩
  rcases childEdge_record h' with ⟨g', hg', hgc', hgp'⟩
  have : g = g' := record_path_inj files hnd hg hg' (hgc.trans hgc'.symm)
  subst this
  rw [hgp] at hgp'
  exact Option.some.inj hgp'

/-- With duplicate-free paths a root has no incoming child edge: its
record declares no parent. -/
theorem root_no_incoming {files : List StandardsFile}
    (hnd : (pathsOf files).Nodup) {r : String}
    (hr : r ∈ (BuildHierarchy files).roots) (p : String) :
    ¬ childEdge (BuildHierarchy files).store p r := by
  intro h
  rcases childEdge_record h with ⟨g, hg, hgr, hgp⟩
  rw [BuildHierarchy_roots] at hr
  rcases List.mem_map.mp hr with ⟨g0, hg0filter, hg0r⟩
  have hg0 : g0 ∈ files := (List.mem_filter.mp hg0filter).1
  have hg0none : g0.header.parent.isNone = true := (List.mem_filter.mp hg0filter).2
  have : g = g0 := record_path_inj files hnd hg hg0 (hgr.trans hg0r.symm)
  subst this
  rw [hgp] at hg0none
  simp at hg0none

/-- C3 amended: for a duplicate-free input, no node reachable from a
root of `BuildHierarchy`'s output is ever its own descendant through
the child edges of the built node map — the forest reachable from the
roots is acyclic. -/
theorem build_acyclic (files : List StandardsFile)
    (hnd : (pathsOf files).Nodup) (r q : String)
    (hr : r ∈ (BuildHierarchy files).roots)
    (hreach : Relation.ReflTransGen (childEdge (BuildHierarchy files).store) r q) :
    ¬ Relation.TransGen (childEdge (BuildHierarchy files).store) q q := by
  induction hreach with
  | refl =>
    intro htg
    rcases Relation.TransGen.tail'_iff.mp htg with ⟨s, _, hsr⟩
    exact root_no_incoming hnd hr s hsr
  | tail hab hbc ih =>
    intro htg
    rename_i b c
    rcases Relation.TransGen.tail'_iff.mp htg with ⟨s, hqs, hsq⟩
    have hsb : s = b := childEdge_functional hnd hsq hbc
    subst hsb
    exact ih (Relation.TransGen.head' hbc hqs)

def exRootOnly : StandardsFile := ⟨"r", ⟨"TR", "D", "*.go", some [], none⟩⟩

theorem build_acyclic_witness :
    ¬ Relation.TransGen (childEdge (BuildHierarchy [exRootOnly]).store) "r" "r" :=
  build_acyclic [exRootOnly] (by decide) "r" "r" (by decide)
    Relation.ReflTransGen.refl

/-! ## C3 counterexample: duplicate paths create a reachable cycle -/

def exSelfA : StandardsFile := ⟨"p", ⟨"TP", "D", "*.go", some [], none⟩⟩
def exSelfB : StandardsFile := ⟨"p", ⟨"TP2", "D", "*.go", some [], some "q"⟩⟩
def exSelfC : StandardsFile := ⟨"q", ⟨"TQ", "D", "*.go", some [], some "p"⟩⟩

/-- C3 counterexample: with two records sharing path `"p"` (one a root,
one declaring parent `"q"`) and a record `"q"` declaring parent `"p"`,
the root node `"p"` is its own descendant in the node structure built
by the linking pass: the output forest is not acyclic (on this very
input the Go `sortChildren` recursion would not terminate). -/
theorem duplicate_path_self_descendant :
    "p" ∈ (BuildHierarchy [exSelfA, exSelfB, exSelfC]).roots
  ∧ Relation.TransGen
      (childEdge (BuildHierarchy [exSelfA, exSelfB, exSelfC]).store) "p" "p" := by
  refine ⟨by decide, ?_⟩
  have h1 : childEdge (BuildHierarchy [exSelfA, exSelfB, exSelfC]).store "p" "q" := by
    refine ⟨_, rfl, ?_⟩
    decide
  have h2 : childEdge (BuildHierarchy [exSelfA, exSelfB, exSelfC]).store "q" "p" := by
    refine ⟨_, rfl, ?_⟩
    decide
  exact Relation.TransGen.head h1 (Relation.TransGen.single h2)

/-! ## C2: every sibling sequence is sorted by title -/

/-- Adjacent-pair sortedness of one sibling list under the comparator
of `sortChildren`: no element's title is strictly below its
predecessor's. -/
def sortedTitles : List TreeNode → Bool
  | [] => true
  | [_] => true
  | a :: b :: t => (!(strLt b.title a.title)) && sortedTitles (b :: t)

mutual

/-- Recursive sortedness of a node: its children list is sorted and
every child is recursively sorted. -/
def nodeSorted : TreeNode → Bool
  | .mk _ _ _ _ _ cs => sortedTitles cs && forestSorted cs

/-- Recursive sortedness of every node of a forest. -/
def forestSorted : List TreeNode → Bool
  | [] => true
  | t :: ts => nodeSorted t && forestSorted ts

end

theorem sortedTitles_of_pairwise : ∀ l : List TreeNode,
    l.Pairwise titleLe → sortedTitles l = true
  | [], _ => rfl
  | [_], _ => rfl
  | a :: b :: t, h => by
    rcases List.pairwise_cons.mp h with ⟨ha, h'⟩
    have hab : titleLe a b := ha b (by simp)
    unfold sortedTitles
    rw [sortedTitles_of_pairwise (b :: t) h']
    unfold titleLe at hab
    simp [hab]

theorem forestSorted_of_all : ∀ l : List TreeNode,
    (∀ t ∈ l, nodeSorted t = true) → forestSorted l = true
  | [], _ => rfl
  | t :: ts, h => by
    unfold forestSorted
    rw [h t (by simp), forestSorted_of_all ts (fun u hu => h u (by simp [hu]))]
    rfl

theorem buildNode_sorted (m : Store) : ∀ fuel p t,
    buildNode m fuel p = some t → nodeSorted t = true := by
  intro fuel
  induction fuel with
  | zero => intro p t h; simp [buildNode] at h
  | succ fuel ih =>
    intro p t h
    unfold buildNode at h
    rcases Option.map_eq_some'.mp h with ⟨nd, _, ht⟩
    subst ht
    unfold nodeSorted
    rw [sortedTitles_of_pairwise _ (sortByTitle_sorted _)]
    rw [forestSorted_of_all _ ?_]
    · rfl
    · intro t' ht'
      have := (sortByTitle_perm _).subset ht'
      rcases List.mem_filterMap.mp this with ⟨c, _, hbc⟩
      exact ih c t' hbc

/-- C2: in the forest returned by build, every sibling sequence — the
root sequence and every children sequence at every depth — is sorted
ascending by title under byte/codepoint lexicographic comparison. -/
theorem build_siblings_sorted (files : List StandardsFile) :
    sortedTitles (buildForest files) = true
  ∧ forestSorted (buildForest files) = true := by
  constructor
  · exact sortedTitles_of_pairwise _ (sortByTitle_sorted _)
  · apply forestSorted_of_all
    intro t ht
    have := (sortByTitle_perm _).subset ht
    rcases List.mem_filterMap.mp this with ⟨r, _, hbr⟩
    exact buildNode_sorted _ _ _ _ hbr

/-! ## C8: serialization shape (`yaml.Marshal` on `StandardsTree`)

`GenerateStandardsTree` serializes the forest with `yaml.v2`, which
renders a Go struct as a mapping whose keys are the lowercased field
names in declaration order, honouring the `yaml:"-"` tag on `Parent`
(types.go), which excludes that field entirely.  We embed the rendered
document as a small YAML value tree. -/

inductive YamlVal : Type where
  | str (s : String) : YamlVal
  | arr (items : List YamlVal) : YamlVal
  | omap (fields : List (String × YamlVal)) : YamlVal

/-- The keys `yaml.v2` produces for one `Node` value, in struct field
order; `Parent` is absent because of its `yaml:"-"` tag. -/
def nodeKeys : List String :=
  ["path", "title", "description", "scope", "topics", "children"]

/-- Rendering of the `Topics` slice (`yaml.v2` renders both a nil and
an empty slice as an empty sequence). -/
def marshalTopics (tp : Option (List String)) : YamlVal :=
  .arr ((tp.getD []).map .str)

mutual

/-- `yaml.Marshal` on one node of the output forest. -/
def marshalNode : TreeNode → YamlVal
  | .mk p t d s tp cs =>
    .omap [("path", .str p), ("title", .str t), ("description", .str d),
           ("scope", .str s), ("topics", marshalTopics tp),
           ("children", .arr (marshalForest cs))]

/-- `yaml.Marshal` on a sequence of nodes. -/
def marshalForest : List TreeNode → List YamlVal
  | [] => []
  | t :: ts => marshalNode t :: marshalForest ts

end

mutual

/-- Every mapping in the value has exactly the `Node` keys. -/
def keysOkVal : YamlVal → Bool
  | .str _ => true
  | .arr items => keysOkList items
  | .omap fields => decide (fields.map Prod.fst = nodeKeys) && keysOkFields fields

def keysOkList : List YamlVal → Bool
  | [] => true
  | v :: vs => keysOkVal v && keysOkList vs

def keysOkFields : List (String × YamlVal) → Bool
  | [] => true
  | f :: fs => keysOkVal f.2 && keysOkFields fs

end

theorem keysOkList_strs : ∀ l : List String, keysOkList (l.map .str) = true
  | [] => rfl
  | _ :: rest => by
    simp only [List.map_cons, keysOkList, keysOkVal, Bool.true_and]
    exact keysOkList_strs rest

mutual

theorem marshalNode_keysOk : ∀ t : TreeNode, keysOkVal (marshalNode t) = true
  | .mk p ttl d s tp cs => by
    have hf := marshalForest_keysOk cs
    cases tp with
    | none =>
      simp [marshalNode, keysOkVal, keysOkFields, keysOkList, marshalTopics,
        nodeKeys, hf]
    | some topics =>
      simp [marshalNode, keysOkVal, keysOkFields, keysOkList, marshalTopics,
        nodeKeys, hf, keysOkList_strs topics]

theorem marshalForest_keysOk : ∀ l : List TreeNode,
    keysOkList (marshalForest l) = true
  | [] => rfl
  | t :: ts => by
    simp only [marshalForest, keysOkList]
    rw [marshalNode_keysOk t, marshalForest_keysOk ts]
    rfl

end

/-- C8: in the serialized output of build, every node mapping carries
exactly the keys path, title, description, scope, topics and children —
in particular the transient `parent` back-reference appears nowhere in
the serialized forest. -/
theorem serialized_fields_exact (files : List StandardsFile) :
    keysOkList (marshalForest (buildForest files)) = true
  ∧ "parent" ∉ nodeKeys :=
  ⟨marshalForest_keysOk _, by decide⟩

/-! ## C6: determinism under permutation of the input -/

def titlesOf (files : List StandardsFile) : List String :=
  files.map fun f => f.header.title

/-- With duplicate-free paths the registered node map is determined by
the set of records: permuting the input leaves every lookup
unchanged. -/
theorem registerNodes_perm_eq {files₁ files₂ : List StandardsFile}
    (hperm : files₁.Perm files₂) (hnd : (pathsOf files₁).Nodup) (k : String) :
    registerNodes files₁ k = registerNodes files₂ k := by
  have hnd₂ : (pathsOf files₂).Nodup := (hperm.map StandardsFile.path).nodup_iff.mp hnd
  cases h₁ : registerNodes files₁ k with
  | none =>
    have hk : k ∉ pathsOf files₁ := (registerNodes_none_iff files₁ k).mp h₁
    have hk₂ : k ∉ pathsOf files₂ := fun hmem =>
      hk ((hperm.map StandardsFile.path).mem_iff.mpr hmem)
    exact ((registerNodes_none_iff files₂ k).mpr hk₂).symm
  | some nd =>
    rcases registerNodes_mem files₁ k h₁ with ⟨f, hf, hfk, hnd'⟩
    subst hnd'
    subst hfk
    exact (registerNodes_nodup files₂ hnd₂ (hperm.mem_iff.mp hf)).symm

theorem childAppends_perm {files₁ files₂ : List StandardsFile}
    (hperm : files₁.Perm files₂) (k : String) :
    (childAppends files₁ k).Perm (childAppends files₂ k) :=
  (hperm.filter _).map _

theorem childAppends_nodup {files : List StandardsFile}
    (hnd : (pathsOf files).Nodup) (k : String) : (childAppends files k).Nodup := by
  have hsub : ((files.filter fun f => decide (f.header.parent = some k)).map
      StandardsFile.path).Sublist (pathsOf files) :=
    (List.filter_sublist files).map StandardsFile.path
  exact hnd.sublist hsub

theorem rootAppends_nodup {files : List StandardsFile}
    (hnd : (pathsOf files).Nodup) : (rootAppends files).Nodup := by
  have hsub : ((files.filter fun f => f.header.parent.isNone).map
      StandardsFile.path).Sublist (pathsOf files) :=
    (List.filter_sublist files).map StandardsFile.path
  exact hnd.sublist hsub

/-- The title (and path) of a materialized node come from its map
entry. -/
theorem buildNode_title (m : Store) : ∀ fuel p t, buildNode m fuel p = some t →
    ∃ nd, m p = some nd ∧ t.title = nd.title := by
  intro fuel p t h
  cases fuel with
  | zero => simp [buildNode] at h
  | succ fuel =>
    unfold buildNode at h
    rcases Option.map_eq_some'.mp h with ⟨nd, hnd, ht⟩
    exact ⟨nd, hnd, by rw [← ht]; rfl⟩

/-- If distinct map entries have distinct titles, materializing a
duplicate-free list of keys yields nodes with pairwise-distinct
titles. -/
theorem buildNode_titles_nodup (m : Store)
    (htitle : ∀ k k' nd nd', m k = some nd → m k' = some nd' → k ≠ k' →
      nd.title ≠ nd'.title) (fuel : Nat) :
    ∀ cs : List String, cs.Nodup →
      ((cs.filterMap (buildNode m fuel)).map TreeNode.title).Nodup := by
  intro cs
  induction cs with
  | nil => simp
  | cons c cs' ih =>
    intro hnd
    rcases List.nodup_cons.mp hnd with ⟨hc, hcs'⟩
    cases hb : buildNode m fuel c with
    | none => simpa [List.filterMap_cons, hb] using ih hcs'
    | some t =>
      simp only [List.filterMap_cons, hb, List.map_cons, List.nodup_cons]
      refine ⟨?_, ih hcs'⟩
      intro hmem
      rcases List.mem_map.mp hmem with ⟨t', ht'mem, ht'title⟩
      rcases List.mem_filterMap.mp ht'mem with ⟨c', hc'mem, hb'⟩
      rcases buildNode_title m fuel c t hb with ⟨nd, hnd', htnd⟩
      rcases buildNode_title m fuel c' t' hb' with ⟨nd'', hnd'', ht'nd⟩
      have hcc' : c ≠ c' := fun hcontra => hc (hcontra ▸ hc'mem)
      exact htitle c c' nd nd'' hnd' hnd'' hcc' (by rw [← htnd, ← ht'nd, ht'title])

/-- Materialization depends on the node map only through its entries'
header fields and the multiset of each entry's children, provided each
entry's children are duplicate-free and distinct entries carry distinct
titles. -/
theorem buildNode_congr (m₁ m₂ : Store)
    (hnone : ∀ k, m₁ k = none ↔ m₂ k = none)
    (hsim : ∀ k nd₁ nd₂, m₁ k = some nd₁ → m₂ k = some nd₂ →
      nd₁.title = nd₂.title ∧ nd₁.description = nd₂.description ∧
      nd₁.scope = nd₂.scope ∧ nd₁.topics = nd₂.topics ∧
      nd₁.children.Perm nd₂.children ∧ nd₁.children.Nodup)
    (htitle : ∀ k k' nd nd', m₁ k = some nd → m₁ k' = some nd' → k ≠ k' →
      nd.title ≠ nd'.title) :
    ∀ fuel p, buildNode m₁ fuel p = buildNode m₂ fuel p := by
  intro fuel
  induction fuel with
  | zero => intro p; rfl
  | succ fuel ih =>
    intro p
    cases h₁ : m₁ p with
    | none =>
      have h₂ : m₂ p = none := (hnone p).mp h₁
      simp [buildNode, h₁, h₂]
    | some nd₁ =>
      cases h₂ : m₂ p with
      | none => exact absurd h₁ (by rw [(hnone p).mpr h₂]; simp)
      | some nd₂ =>
        rcases hsim p nd₁ nd₂ h₁ h₂ with ⟨ht, hd, hs, htp, hcp, hcnd⟩
        have hfun : buildNode m₁ fuel = buildNode m₂ fuel := funext (fun c => ih c)
        have hperm : (nd₁.children.filterMap (buildNode m₁ fuel)).Perm
            (nd₂.children.filterMap (buildNode m₁ fuel)) := hcp.filterMap _
        have hsort : sortByTitle (nd₁.children.filterMap (buildNode m₁ fuel)) =
            sortByTitle (nd₂.children.filterMap (buildNode m₁ fuel)) :=
          sortByTitle_eq_of_perm hperm (buildNode_titles_nodup m₁ htitle fuel _ hcnd)
        simp only [buildNode, h₁, h₂, Option.map_some']
        rw [← hfun, hsort, ht, hd, hs, htp]

/-- C6 amended: build is a pure function of its input list (re-running
it on identical input yields identical output), and when record paths
are pairwise distinct and record titles are pairwise distinct, the
output forest is invariant under every permutation of the input.  (With
duplicated titles among siblings the tie-broken order follows input
order, see the counterexample.) -/
theorem build_perm_deterministic (files₁ files₂ : List StandardsFile)
    (hperm : files₁.Perm files₂)
    (hpaths : (pathsOf files₁).Nodup)
    (htitles : (titlesOf files₁).Nodup) :
    buildForest files₁ = buildForest files₂ := by
  have hreg : ∀ k, registerNodes files₁ k = registerNodes files₂ k :=
    registerNodes_perm_eq hperm hpaths
  have hnone : ∀ k, (BuildHierarchy files₁).store k = none ↔
      (BuildHierarchy files₂).store k = none := by
    intro k
    rw [BuildHierarchy_store, BuildHierarchy_store, hreg k]
    cases registerNodes files₂ k <;> simp
  have hsim : ∀ k nd₁ nd₂, (BuildHierarchy files₁).store k = some nd₁ →
      (BuildHierarchy files₂).store k = some nd₂ →
      nd₁.title = nd₂.title ∧ nd₁.description = nd₂.description ∧
      nd₁.scope = nd₂.scope ∧ nd₁.topics = nd₂.topics ∧
      nd₁.children.Perm nd₂.children ∧ nd₁.children.Nodup := by
    intro k nd₁ nd₂ h₁ h₂
    rw [BuildHierarchy_store] at h₁ h₂
    rw [← hreg k] at h₂
    rcases Option.map_eq_some'.mp h₁ with ⟨nd0, hnd0, hback₁⟩
    rcases Option.map_eq_some'.mp h₂ with ⟨nd0', hnd0', hback₂⟩
    rw [hnd0] at hnd0'
    have : nd0' = nd0 := Option.some.inj hnd0'.symm
    subst this
    subst hback₁
    subst hback₂
    exact ⟨rfl, rfl, rfl, rfl, childAppends_perm hperm k, childAppends_nodup hpaths k⟩
  have htitle : ∀ k k' nd nd', (BuildHierarchy files₁).store k = some nd →
      (BuildHierarchy files₁).store k' = some nd' → k ≠ k' →
      nd.title ≠ nd'.title := by
    intro k k' nd nd' h₁ h₂ hkk
    rw [BuildHierarchy_store] at h₁ h₂
    rcases Option.map_eq_some'.mp h₁ with ⟨nd0, hnd0, hback₁⟩
    rcases Option.map_eq_some'.mp h₂ with ⟨nd0', hnd0', hback₂⟩
    rcases registerNodes_mem files₁ k hnd0 with ⟨f, hf, hfk, hfnd⟩
    rcases registerNodes_mem files₁ k' hnd0' with ⟨f', hf', hfk', hfnd'⟩
    subst hback₁
    subst hback₂
    subst hfnd
    subst hfnd'
    show (mkNode f).title ≠ (mkNode f').title
    intro hteq
    have : f = f' := List.inj_on_of_nodup_map htitles hf hf' hteq
    subst this
    exact hkk (hfk.symm.trans hfk')
  have hcongr := buildNode_congr _ _ hnone hsim htitle
  have hlen : files₂.length = files₁.length := hperm.length_eq.symm
  show sortByTitle ((BuildHierarchy files₁).roots.filterMap
      (buildNode (BuildHierarchy files₁).store (files₁.length + 1))) =
    sortByTitle ((BuildHierarchy files₂).roots.filterMap
      (buildNode (BuildHierarchy files₂).store (files₂.length + 1)))
  rw [BuildHierarchy_roots, BuildHierarchy_roots, hlen]
  have hfun : buildNode (BuildHierarchy files₂).store (files₁.length + 1) =
      buildNode (BuildHierarchy files₁).store (files₁.length + 1) :=
    funext fun p => (hcongr _ p).symm
  rw [hfun]
  exact sortByTitle_eq_of_perm (((hperm.filter _).map _).filterMap _)
    (buildNode_titles_nodup _ htitle _ _ (rootAppends_nodup hpaths))

def exTieA : StandardsFile := ⟨"a", ⟨"Same", "DA", "*.go", some [], none⟩⟩
def exTieB : StandardsFile := ⟨"b", ⟨"Same", "DB", "*.go", some [], none⟩⟩

/-- C6 counterexample: two root records with the same title but
different paths.  Swapping them in the input swaps them in the output
(the sort is stable on equal titles), so build does not produce the
same tree for every permutation of the input. -/
theorem perm_changes_output :
    List.Perm [exTieA, exTieB] [exTieB, exTieA]
  ∧ buildForest [exTieA, exTieB] ≠ buildForest [exTieB, exTieA] := by
  refine ⟨by decide, fun h => ?_⟩
  have hpaths := congrArg (List.map TreeNode.path) h
  rw [show (buildForest [exTieA, exTieB]).map TreeNode.path = ["a", "b"] from rfl,
    show (buildForest [exTieB, exTieA]).map TreeNode.path = ["b", "a"] from rfl] at hpaths
  exact absurd hpaths (by decide)

def exDistA : StandardsFile := ⟨"a", ⟨"T1", "DA", "*.go", some [], none⟩⟩
def exDistB : StandardsFile := ⟨"b", ⟨"T2", "DB", "*.go", some [], some "a"⟩⟩

theorem build_perm_deterministic_witness :
    buildForest [exDistA, exDistB] = buildForest [exDistB, exDistA] :=
  build_perm_deterministic [exDistA, exDistB] [exDistB, exDistA]
    (by decide) (by decide) (by decide)

end Stdidx
